import Mathlib

/-
  Verification development for the ir_frontend repository (src/src/App.tsx).

  The embedding models, from the source:
  * `highlightText text terms` — builds the combined regex
    `\b(escape(t1)|...|escape(tn))\b` with flags `gi`, splits `text` on it
    (JavaScript `String.prototype.split` semantics, captured group included
    in the output), and tags each part `matched` when it is case-insensitively
    equal to one of the terms, `plain` otherwise;
  * the tokenization step `query.split(/\s+/).filter(Boolean)`;
  * the `handleSearch` state updates of the search session, as a step
    function on an explicit session state, with backend responses applied
    in arrival order (the source has no generation counter).

  Case folding is modelled with the ASCII-only `Char.toLower`; the model of
  the matcher and of the classification step is exact for ASCII text and
  terms, and statements linking matcher behavior to classification are
  scoped to ASCII where the engine's uppercase-based canonicalization and
  `toLowerCase()` coincide.
-/

set_option autoImplicit false

/-- The metacharacter class escaped by `highlightText`:
`t.replace(/[.*+?^$\x7b\x7d()|[\]\\]/g, "\\$&")`. -/
def metachar (c : Char) : Bool :=
  c == '.' || c == '*' || c == '+' || c == '?' || c == '^' || c == '$' ||
  c == '\x7b' || c == '\x7d' || c == '(' || c == ')' || c == '|' ||
  c == '[' || c == ']' || c == '\\'

/-- The escaping step of `highlightText`: each metacharacter is replaced by
a backslash followed by itself. -/
def escapeTerm : List Char → List Char
  | [] => []
  | c :: rest => (if metachar c then ['\\', c] else [c]) ++ escapeTerm rest

/-- Reading an escaped alternative back as the sequence of literal atoms the
regex engine sees: `\c` is the literal character `c`; an unescaped
metacharacter would be an operator, decoded as `none`. -/
def decodeAtoms : List Char → Option (List Char)
  | [] => some []
  | c :: rest =>
    if c = '\\' then
      match rest with
      | [] => none
      | d :: rest2 => (decodeAtoms rest2).map (fun l => d :: l)
    else if metachar c then none
    else (decodeAtoms rest).map (fun l => c :: l)

/-- The literal alternative the combined matcher uses for a term. -/
def compiledAlt (t : List Char) : List Char :=
  (decodeAtoms (escapeTerm t)).getD []

/-- The alternation body of the combined matcher, one alternative per term,
in term-list order. -/
def compiledAlts (terms : List (List Char)) : List (List Char) :=
  terms.map compiledAlt

/-- JavaScript regex word character (`\w`, i.e. `[A-Za-z0-9_]`). -/
def isWordChar (c : Char) : Bool :=
  (('a' ≤ c) && (c ≤ 'z')) || (('A' ≤ c) && (c ≤ 'Z')) ||
  (('0' ≤ c) && (c ≤ '9')) || c == '_'

/-- Whether the character at index `i` exists and is a word character. -/
def wordAt (s : List Char) (i : Nat) : Bool :=
  match s.get? i with
  | some c => isWordChar c
  | none => false

/-- JavaScript `\b`: a word boundary holds at position `i` (between index
`i - 1` and index `i`) iff exactly one side is a word character; out-of-range
positions count as non-word. -/
def boundaryAt (s : List Char) (i : Nat) : Bool :=
  (if i = 0 then false else wordAt s (i - 1)) != wordAt s i

/-- Case-insensitive character comparison of the `i` flag, modelled with
`Char.toLower`, which folds exactly the ASCII letters. ECMAScript's
canonicalization for a non-unicode regex is uppercase-based and
Unicode-wide; on ASCII characters the two agree (same uppercase iff same
lowercase), so this model of the matcher is exact for ASCII text and terms
and under-matches elsewhere (e.g. the engine matches `σ` against `ς` via
`Σ`, this model does not). -/
def ciEq (a b : Char) : Bool := a.toLower == b.toLower

/-- ASCII character predicate, delimiting where the case-folding model is
exact. -/
def isAsciiChar (c : Char) : Bool := c.toNat < 128

/-- ASCII string predicate. -/
def isAsciiStr (s : List Char) : Bool := s.all isAsciiChar

/-- Case-insensitive literal match of `t` against an initial segment of `xs`. -/
def litMatchFrom : List Char → List Char → Bool
  | [], _ => true
  | _ :: _, [] => false
  | a :: as, b :: bs => ciEq a b && litMatchFrom as bs

/-- Case-insensitive literal match of `t` in `s` starting at index `q`. -/
def litMatch (t : List Char) (s : List Char) (q : Nat) : Bool :=
  litMatchFrom t (s.drop q)

/-- Attempt of the combined pattern `\b(alt1|...|altn)\b` at exactly
position `q` (sticky semantics, as `String.prototype.split` uses): the
leading boundary must hold, and the alternatives are tried in order, the
first one whose literal and trailing boundary both succeed winning. Returns
the matching alternative. -/
def matchAt (alts : List (List Char)) (s : List Char) (q : Nat) : Option (List Char) :=
  if boundaryAt s q = true then
    alts.find? (fun t => litMatch t s q && boundaryAt s (q + t.length))
  else none

/-- The contiguous slice of `s` from index `a` (inclusive) to `b`
(exclusive). -/
def sliceStr (s : List Char) (a b : Nat) : List Char :=
  (s.drop a).take (b - a)

/-- One part of the split result: an inter-match fragment
(`isMatch = false`) or a captured match (`isMatch = true`). -/
structure RawPart where
  isMatch : Bool
  str : List Char
  deriving DecidableEq

/-- The loop of `String.prototype.split` with a separator regex containing
one capturing group around the whole body: `p` is the end of the last
emitted fragment, `q` the current scan position; a failed attempt advances
`q` by one; an empty match ending at `p` is skipped; otherwise the pending
fragment, then the captured match, are emitted. `fuel` bounds the
iterations (any value at least `2 * s.length + 2` is exact). -/
def splitLoop (alts : List (List Char)) (s : List Char) : Nat → Nat → Nat → List RawPart
  | 0, p, _ => [⟨false, sliceStr s p s.length⟩]
  | fuel + 1, p, q =>
    if q < s.length then
      match matchAt alts s q with
      | none => splitLoop alts s fuel p (q + 1)
      | some t =>
        if q + t.length = p then
          splitLoop alts s fuel p (q + 1)
        else
          RawPart.mk false (sliceStr s p q) ::
            RawPart.mk true (sliceStr s q (q + t.length)) ::
              splitLoop alts s fuel (q + t.length) (q + t.length)
    else [⟨false, sliceStr s p s.length⟩]

/-- `text.split(pattern)` for the combined matcher: fragments and captured
matches, in order. -/
def splitRegex (alts : List (List Char)) (s : List Char) : List RawPart :=
  splitLoop alts s (2 * s.length + 2) 0 0

/-- Lowercasing of a string, as in `toLowerCase()`, modelled with the
ASCII-only `Char.toLower` (exact on ASCII strings; non-ASCII case pairs the
source's `toLowerCase` identifies are left distinct here). Note that the
source applies this folding only in the classification step, while the
matcher's `i` flag canonicalizes by uppercasing — the two disagree outside
ASCII. -/
def lowerStr (s : List Char) : List Char := s.map Char.toLower

/-- The source's classification step:
`terms.some((t) => t.toLowerCase() === part.toLowerCase())`. -/
def isTermCI (terms : List (List Char)) (part : List Char) : Bool :=
  terms.any (fun t => lowerStr t == lowerStr part)

/-- Tag of an output span: `matched` renders as `<mark>`, `plain` as plain
text. -/
inductive Tag where
  | matched
  | plain
  deriving DecidableEq

/-- One output span of the highlighter. -/
structure Span where
  tag : Tag
  str : List Char
  deriving DecidableEq

/-- `highlightText(text, terms)` from src/src/App.tsx: with no terms the
whole text is returned as-is (one plain chunk); otherwise the text is split
on the combined matcher and each part is tagged `matched` exactly when it is
case-insensitively equal to one of the terms. -/
def highlightText (text : List Char) (terms : List (List Char)) : List Span :=
  match terms with
  | [] => [⟨Tag.plain, text⟩]
  | _ :: _ =>
    (splitRegex (compiledAlts terms) text).map
      (fun part =>
        ⟨if isTermCI terms part.str then Tag.matched else Tag.plain, part.str⟩)

/-- JavaScript regex whitespace class `\s`. -/
def isJsWs (c : Char) : Bool :=
  c == ' ' || c == '\t' || c == '\n' || c == '\x0b' || c == '\x0c' ||
  c == '\r' || c == '\u00a0' || c == '\u1680' ||
  (('\u2000' ≤ c) && (c ≤ '\u200a')) || c == '\u2028' || c == '\u2029' ||
  c == '\u202f' || c == '\u205f' || c == '\u3000' || c == '\ufeff'

/-- The loop of `query.split(/\s+/)`: emit the maximal non-whitespace run,
then skip the following whitespace run; a leading or trailing whitespace run
produces an empty fragment. `fuel` bounds the iterations (`s.length`
suffices). -/
def splitWsGo : Nat → List Char → List (List Char)
  | 0, s => [s.takeWhile (fun c => !isJsWs c)]
  | fuel + 1, s =>
    match s.dropWhile (fun c => !isJsWs c) with
    | [] => [s.takeWhile (fun c => !isJsWs c)]
    | _ :: rest =>
      s.takeWhile (fun c => !isJsWs c) :: splitWsGo fuel (rest.dropWhile isJsWs)

/-- The tokenization step `query.split(/\s+/).filter(Boolean)`. -/
def tokenize (q : List Char) : List (List Char) :=
  (splitWsGo q.length q).filter (fun t => !t.isEmpty)

/-- JavaScript `String.prototype.trim` on the query (`query.trim()`). -/
def trimJs (q : List Char) : List Char :=
  ((q.dropWhile isJsWs).reverse.dropWhile isJsWs).reverse

/-- The component state touched by `handleSearch`: `results`, `loading`,
`error`, `selectedDoc` (the `query` field is passed to the submit step
explicitly). `α` is the document type. -/
structure SessionState (α : Type) where
  results : List α
  loading : Bool
  error : Option (List Char)
  selectedDoc : Option α
  deriving DecidableEq

/-- Message set by the empty-query validation branch. -/
def emptyQueryMsg : List Char := ("Please enter a query.").toList

/-- Message set when the backend returns zero results. -/
def noResultsMsg : List Char := ("No matching documents found.").toList

/-- Message set by the `catch` branch on transport/parse failure. -/
def transportFailMsg : List Char := ("Could not connect to backend.").toList

/-- A backend response as `handleSearch` discriminates it: a transport or
parse failure (the `catch` branch), a response with a truthy `error` field,
or a response with a `results` array. -/
inductive BackendResp (α : Type) where
  | transportFail
  | backendError (msg : List Char)
  | ok (rs : List α)
  deriving DecidableEq

/-- The synchronous head of `handleSearch`, up to the `fetch`: on an
empty-trimmed query it sets the error and clears results and returns without
contacting the backend (second component `false`); otherwise it sets
loading, clears error, results and selection, and issues the request
(second component `true`). -/
def submitStep {α : Type} (s : SessionState α) (q : List Char) :
    SessionState α × Bool :=
  if trimJs q = [] then
    ({ s with error := some emptyQueryMsg, results := [] }, false)
  else
    ({ s with loading := true, error := none, results := [],
              selectedDoc := none }, true)

/-- The continuation of `handleSearch` after its `fetch` resolves, applied
to whatever state is current at arrival time (the source checks no
generation): the three branches of the response handling, each followed by
`setLoading(false)`. The success branch stores the results without touching
`error`. -/
def applyResponse {α : Type} (s : SessionState α) (r : BackendResp α) :
    SessionState α :=
  match r with
  | BackendResp.backendError msg =>
      { s with error := some msg, results := [], loading := false }
  | BackendResp.ok rs =>
      if rs.length = 0 then
        { s with error := some noResultsMsg, results := [], loading := false }
      else
        { s with results := rs, loading := false }
  | BackendResp.transportFail =>
      { s with error := some transportFailMsg, loading := false }

/-- An observable event of the session: a submission (the user triggers
`handleSearch` with the current query) or the arrival of a backend response
for some earlier in-flight request. -/
inductive SEvent (α : Type) where
  | submit (q : List Char)
  | response (r : BackendResp α)
  deriving DecidableEq

/-- Applying one event to the session state, exactly as the source's state
setters do. -/
def applyEvent {α : Type} (s : SessionState α) : SEvent α → SessionState α
  | SEvent.submit q => (submitStep s q).1
  | SEvent.response r => applyResponse s r

/-- Running a sequence of events in order. -/
def runEvents {α : Type} (s : SessionState α) (es : List (SEvent α)) :
    SessionState α :=
  es.foldl applyEvent s

/-- One full submission processed to completion with no interleaved
submission: the submit step, then — only if a request was issued — its
response. -/
def runSubmission {α : Type} (s : SessionState α) (q : List Char)
    (r : BackendResp α) : SessionState α :=
  if (submitStep s q).2 then applyResponse (submitStep s q).1 r
  else (submitStep s q).1

/-- The initial component state: no results, not loading, no error, no
selection. -/
def initialState : SessionState Nat :=
  { results := [], loading := false, error := none, selectedDoc := none }

/-- Concatenation of a list of strings. -/
def concatAll (l : List (List Char)) : List Char :=
  l.foldr (fun a b => a ++ b) []

/-! ### Helper lemmas -/

theorem sliceStr_to_length (s : List Char) (p : Nat) :
    sliceStr s p s.length = s.drop p := by
  unfold sliceStr
  rw [← List.length_drop, List.take_length]

theorem sliceStr_append_drop (s : List Char) (a b : Nat) (h : a ≤ b) :
    sliceStr s a b ++ s.drop b = s.drop a := by
  have hb : (s.drop a).drop (b - a) = s.drop b := by
    rw [List.drop_drop, Nat.add_sub_cancel' h]
  unfold sliceStr
  rw [← hb, List.take_append_drop]

theorem splitLoop_concat (alts : List (List Char)) (s : List Char) :
    ∀ (fuel p q : Nat), p ≤ q →
      concatAll ((splitLoop alts s fuel p q).map RawPart.str) = s.drop p := by
  intro fuel
  induction fuel with
  | zero =>
      intro p q _
      simp [splitLoop, concatAll, sliceStr_to_length]
  | succ fuel ih =>
      intro p q hpq
      by_cases hq : q < s.length
      · cases hm : matchAt alts s q with
        | none =>
            simp only [splitLoop, if_pos hq, hm]
            exact ih p (q + 1) (Nat.le_succ_of_le hpq)
        | some t =>
            simp only [splitLoop, if_pos hq, hm]
            by_cases hp : q + t.length = p
            · rw [if_pos hp]
              exact ih p (q + 1) (Nat.le_succ_of_le hpq)
            · rw [if_neg hp]
              have hrest := ih (q + t.length) (q + t.length) (Nat.le_refl _)
              simp only [List.map_cons, concatAll, List.foldr_cons] at hrest ⊢
              rw [hrest, sliceStr_append_drop s q (q + t.length) (Nat.le_add_right _ _),
                  sliceStr_append_drop s p q hpq]
      · simp [splitLoop, hq, concatAll, sliceStr_to_length]

theorem splitLoop_ne_nil (alts : List (List Char)) (s : List Char) :
    ∀ (fuel p q : Nat), splitLoop alts s fuel p q ≠ [] := by
  intro fuel
  induction fuel with
  | zero => intro p q; simp [splitLoop]
  | succ fuel ih =>
      intro p q
      by_cases hq : q < s.length
      · cases hm : matchAt alts s q with
        | none => simp only [splitLoop, if_pos hq, hm]; exact ih p (q + 1)
        | some t =>
            simp only [splitLoop, if_pos hq, hm]
            by_cases hp : q + t.length = p
            · rw [if_pos hp]; exact ih p (q + 1)
            · rw [if_neg hp]; simp
      · simp [splitLoop, hq]

theorem litMatchFrom_lower (t : List Char) : ∀ (xs : List Char),
    litMatchFrom t xs = true → lowerStr (xs.take t.length) = lowerStr t := by
  induction t with
  | nil => intro xs _; simp [lowerStr]
  | cons a as ih =>
      intro xs h
      cases xs with
      | nil => simp [litMatchFrom] at h
      | cons b bs =>
          simp only [litMatchFrom, Bool.and_eq_true] at h
          have hab : a.toLower = b.toLower := eq_of_beq h.1
          have ih2 := ih bs h.2
          simp only [lowerStr, List.map_cons, List.length_cons,
            List.take_succ_cons] at ih2 ⊢
          rw [ih2, hab]

theorem matchAt_spec (alts : List (List Char)) (s : List Char) (q : Nat)
    (t : List Char) (h : matchAt alts s q = some t) :
    t ∈ alts ∧ lowerStr (sliceStr s q (q + t.length)) = lowerStr t := by
  unfold matchAt at h
  by_cases hb : boundaryAt s q = true
  · rw [if_pos hb] at h
    refine ⟨List.mem_of_find?_eq_some h, ?_⟩
    have hp := List.find?_some h
    rw [Bool.and_eq_true] at hp
    unfold sliceStr
    rw [Nat.add_sub_cancel_left]
    exact litMatchFrom_lower t (s.drop q) hp.1
  · rw [if_neg hb] at h
    exact absurd h (by simp)

theorem splitLoop_capture (alts : List (List Char)) (s : List Char) :
    ∀ (fuel p q : Nat) (part : RawPart), part ∈ splitLoop alts s fuel p q →
      part.isMatch = true → ∃ t ∈ alts, lowerStr part.str = lowerStr t := by
  intro fuel
  induction fuel with
  | zero =>
      intro p q part hmem hcap
      simp [splitLoop] at hmem
      rw [hmem] at hcap
      simp at hcap
  | succ fuel ih =>
      intro p q part hmem hcap
      by_cases hq : q < s.length
      · cases hm : matchAt alts s q with
        | none =>
            simp only [splitLoop, if_pos hq, hm] at hmem
            exact ih p (q + 1) part hmem hcap
        | some t =>
            simp only [splitLoop, if_pos hq, hm] at hmem
            by_cases hp : q + t.length = p
            · rw [if_pos hp] at hmem
              exact ih p (q + 1) part hmem hcap
            · rw [if_neg hp] at hmem
              rw [List.mem_cons, List.mem_cons] at hmem
              rcases hmem with hmem | hmem | hmem
              · rw [hmem] at hcap; simp at hcap
              · have hspec := matchAt_spec alts s q t hm
                exact ⟨t, hspec.1, by rw [hmem]; exact hspec.2⟩
              · exact ih (q + t.length) (q + t.length) part hmem hcap
      · simp only [splitLoop, if_neg hq] at hmem
        simp at hmem
        rw [hmem] at hcap
        simp at hcap

theorem escape_decode (t : List Char) : decodeAtoms (escapeTerm t) = some t := by
  induction t with
  | nil => rfl
  | cons c rest ih =>
      by_cases hc : metachar c = true
      · simp [escapeTerm, hc, decodeAtoms, ih]
      · have hcb : ¬(c = '\\') := by
          intro h
          rw [h] at hc
          exact hc rfl
        have he : escapeTerm (c :: rest) = c :: escapeTerm rest := by
          simp [escapeTerm, hc]
        rw [he, decodeAtoms.eq_def]
        simp [hcb, hc, ih]

theorem compiledAlt_id (t : List Char) : compiledAlt t = t := by
  unfold compiledAlt
  rw [escape_decode]
  rfl

theorem compiledAlts_id (terms : List (List Char)) : compiledAlts terms = terms := by
  unfold compiledAlts
  induction terms with
  | nil => rfl
  | cons t ts ih => simp only [List.map_cons, compiledAlt_id, ih]

theorem highlight_concat (text : List Char) (terms : List (List Char)) :
    concatAll ((highlightText text terms).map Span.str) = text := by
  cases terms with
  | nil => simp [highlightText, concatAll]
  | cons t ts =>
      unfold highlightText splitRegex
      rw [List.map_map]
      have h := splitLoop_concat (compiledAlts (t :: ts)) text
        (2 * text.length + 2) 0 0 (Nat.le_refl 0)
      rw [List.drop_zero] at h
      exact h

theorem capture_isTermCI (text : List Char) (terms : List (List Char))
    (part : RawPart) (hmem : part ∈ splitRegex (compiledAlts terms) text)
    (hcap : part.isMatch = true) : isTermCI terms part.str = true := by
  obtain ⟨t, ht, hlow⟩ :=
    splitLoop_capture (compiledAlts terms) text (2 * text.length + 2) 0 0 part hmem hcap
  rw [compiledAlts_id] at ht
  unfold isTermCI
  rw [List.any_eq_true]
  refine ⟨t, ht, ?_⟩
  rw [hlow]
  exact LawfulBEq.rfl

theorem highlight_tag_iff (text : List Char) (terms : List (List Char))
    (hne : terms ≠ []) (sp : Span) (hsp : sp ∈ highlightText text terms) :
    sp.tag = Tag.matched ↔ isTermCI terms sp.str = true := by
  cases terms with
  | nil => exact absurd rfl hne
  | cons t ts =>
      unfold highlightText at hsp
      rw [List.mem_map] at hsp
      obtain ⟨part, _, heq⟩ := hsp
      by_cases h : isTermCI (t :: ts) part.str = true
      · rw [← heq]
        simp [h]
      · rw [← heq]
        simp [h]

theorem takeWhile_not_ws (s : List Char) (hws : ∀ c ∈ s, isJsWs c = true) :
    s.takeWhile (fun c => !isJsWs c) = [] := by
  cases s with
  | nil => rfl
  | cons c rest =>
      have hc := hws c (List.mem_cons_self c rest)
      simp [List.takeWhile_cons, hc]

theorem dropWhile_not_ws (s : List Char) (hws : ∀ c ∈ s, isJsWs c = true) :
    s.dropWhile (fun c => !isJsWs c) = s := by
  cases s with
  | nil => rfl
  | cons c rest =>
      have hc := hws c (List.mem_cons_self c rest)
      simp [List.dropWhile_cons, hc]

theorem dropWhile_ws_all (s : List Char) (hws : ∀ c ∈ s, isJsWs c = true) :
    s.dropWhile isJsWs = [] := by
  induction s with
  | nil => rfl
  | cons c rest ih =>
      have hc := hws c (List.mem_cons_self c rest)
      have ih2 := ih (fun d hd => hws d (List.mem_cons_of_mem c hd))
      simp [List.dropWhile_cons, hc, ih2]

theorem splitWsGo_allWs : ∀ (fuel : Nat) (s : List Char),
    (∀ c ∈ s, isJsWs c = true) → ∀ fr ∈ splitWsGo fuel s, fr = [] := by
  intro fuel
  induction fuel with
  | zero =>
      intro s hws fr hfr
      simp only [splitWsGo, List.mem_singleton] at hfr
      rw [hfr]
      exact takeWhile_not_ws s hws
  | succ fuel ih =>
      intro s hws fr hfr
      rw [splitWsGo, dropWhile_not_ws s hws] at hfr
      cases s with
      | nil =>
          simp at hfr
          rw [hfr]
      | cons c rest =>
          have hrest : ∀ d ∈ rest, isJsWs d = true :=
            fun d hd => hws d (List.mem_cons_of_mem c hd)
          simp only [takeWhile_not_ws _ hws, dropWhile_ws_all rest hrest,
            List.mem_cons] at hfr
          rcases hfr with hfr | hfr
          · exact hfr
          · exact ih [] (by simp) fr hfr

theorem filter_nonempty_nil (l : List (List Char)) (h : ∀ fr ∈ l, fr = []) :
    l.filter (fun t => !t.isEmpty) = [] := by
  induction l with
  | nil => rfl
  | cons x xs ih =>
      have hx := h x (List.mem_cons_self x xs)
      have hxs := ih (fun fr hfr => h fr (List.mem_cons_of_mem x hfr))
      rw [hx]
      simp [List.filter_cons, hxs]

theorem tokenize_allWs (q : List Char) (h : ∀ c ∈ q, isJsWs c = true) :
    tokenize q = [] := by
  unfold tokenize
  exact filter_nonempty_nil _ (splitWsGo_allWs q.length q h)

/-! ### Claim theorems -/

/-- Claim C1: every pattern-metacharacter in a term is matched only as a
literal character: the escaped form of any term decodes back to exactly the
term's own characters as literal atoms (so the combined matcher's
alternative for each term is the term itself), and
`segment("a.b*c", ["a.b*c"])` yields exactly one matched span covering the
literal substring `"a.b*c"`. -/
theorem c1_metachar_literal :
    (∀ t : List Char, decodeAtoms (escapeTerm t) = some t)
  ∧ (∀ terms : List (List Char), compiledAlts terms = terms)
  ∧ highlightText (("a.b*c").toList) [("a.b*c").toList]
      = [⟨Tag.plain, []⟩, ⟨Tag.matched, ("a.b*c").toList⟩, ⟨Tag.plain, []⟩]
  ∧ ((highlightText (("a.b*c").toList) [("a.b*c").toList]).filter
        (fun sp => sp.tag == Tag.matched)).map Span.str = [("a.b*c").toList] :=
  ⟨escape_decode, compiledAlts_id, by decide, by decide⟩

/-- Claim C2: segmentation losslessness — for every text and every term
list, concatenating the spans of `highlightText text terms` in order
reproduces `text` exactly. -/
theorem c2_lossless : ∀ (text : List Char) (terms : List (List Char)),
    concatAll ((highlightText text terms).map Span.str) = text :=
  fun text terms => highlight_concat text terms

/-- Claim C3 (counterexample): in `highlightText ".cat" [".", "cat"]` the
leading `"."` is an unmatched fragment of the split (no word boundary holds
at position 0, so the combined matcher does not match there), yet its span
is tagged `matched` — refuting "a span is tagged matched only if it is a
run matched by the combined matcher". -/
theorem c3_counterexample :
    (splitRegex (compiledAlts [(".").toList, ("cat").toList]) ((".cat").toList)).head?
        = some ⟨false, (".").toList⟩
  ∧ matchAt (compiledAlts [(".").toList, ("cat").toList]) ((".cat").toList) 0 = none
  ∧ (highlightText ((".cat").toList) [(".").toList, ("cat").toList]).head?
        = some ⟨Tag.matched, (".").toList⟩ := by decide

/-- Claim C3 (amended): a span is tagged `matched` iff its string is
`toLowerCase`-equal to one of the terms — classification is by string
comparison, not by match provenance, so an unmatched fragment equal to a
term is also tagged `matched`. For ASCII text and ASCII terms, where the
matcher's uppercase-based canonicalization and the classifier's lowercase
folding provably coincide, every captured run of the combined matcher is
term-equal and hence tagged `matched`; outside ASCII the two foldings
disagree (the engine matches `σ` against `ς`, whose lowercase forms
differ), so the provenance direction is claimed only in the ASCII scope.
The claim's concrete examples hold: `"Cat"` in `"The Cat sat"` is matched,
and in `"category cat"` only the standalone `"cat"` is matched. -/
theorem c3_amended :
    (∀ (text : List Char) (terms : List (List Char)) (part : RawPart),
        isAsciiStr text = true → (∀ t ∈ terms, isAsciiStr t = true) →
        part ∈ splitRegex (compiledAlts terms) text → part.isMatch = true →
          isTermCI terms part.str = true)
  ∧ (∀ (text : List Char) (terms : List (List Char)), terms ≠ [] →
        ∀ sp ∈ highlightText text terms,
          (sp.tag = Tag.matched ↔ isTermCI terms sp.str = true))
  ∧ highlightText (("The Cat sat").toList) [("cat").toList]
      = [⟨Tag.plain, ("The ").toList⟩, ⟨Tag.matched, ("Cat").toList⟩,
         ⟨Tag.plain, (" sat").toList⟩]
  ∧ highlightText (("category cat").toList) [("cat").toList]
      = [⟨Tag.plain, ("category ").toList⟩, ⟨Tag.matched, ("cat").toList⟩,
         ⟨Tag.plain, []⟩] :=
  ⟨fun text terms part _ _ hmem hcap => capture_isTermCI text terms part hmem hcap,
   fun text terms hne sp hsp => highlight_tag_iff text terms hne sp hsp,
   by decide, by decide⟩

/-- Claim C3 (witness): the amended theorem applied at concrete ASCII
inputs — the captured `"Cat"` part of `"The Cat sat"` is term-equal, and
its span satisfies the tag equivalence. -/
theorem c3_amended_witness :
    isTermCI [("cat").toList] (RawPart.mk true (("Cat").toList)).str = true
  ∧ ((Span.mk Tag.matched (("Cat").toList)).tag = Tag.matched
      ↔ isTermCI [("cat").toList] (Span.mk Tag.matched (("Cat").toList)).str = true) :=
  ⟨c3_amended.1 (("The Cat sat").toList) [("cat").toList]
      (RawPart.mk true (("Cat").toList)) (by decide) (by decide) (by decide) rfl,
   c3_amended.2.1 (("The Cat sat").toList) [("cat").toList] (by decide)
      (Span.mk Tag.matched (("Cat").toList)) (by decide)⟩

/-- Claim C4 (counterexample): `highlightText "cat" ["cat"]` contains two
zero-width plain spans (before and after the match), refuting "the
Segmentation contains no zero-width span". -/
theorem c4_counterexample :
    highlightText (("cat").toList) [("cat").toList]
      = [⟨Tag.plain, []⟩, ⟨Tag.matched, ("cat").toList⟩, ⟨Tag.plain, []⟩] := by
  decide

/-- Claim C4 (amended): when every term is non-empty, every span tagged
`matched` in the output of `highlightText` is a non-empty substring;
zero-width spans can occur, but only tagged `plain` (empty fragments at
match boundaries are kept in the output). -/
theorem c4_amended : ∀ (text : List Char) (terms : List (List Char)),
    (∀ t ∈ terms, t ≠ ([] : List Char)) →
    ∀ sp ∈ highlightText text terms, sp.tag = Tag.matched → sp.str ≠ [] := by
  intro text terms hterms sp hsp htag
  cases terms with
  | nil =>
      simp [highlightText] at hsp
      rw [hsp] at htag
      simp at htag
  | cons t ts =>
      have hci := (highlight_tag_iff text (t :: ts) (by simp) sp hsp).mp htag
      unfold isTermCI at hci
      rw [List.any_eq_true] at hci
      obtain ⟨u, hu, hbeq⟩ := hci
      have heq : lowerStr u = lowerStr sp.str := eq_of_beq hbeq
      have hlen : u.length = sp.str.length := by
        have h2 := congrArg List.length heq
        simpa [lowerStr] using h2
      intro hnil
      rw [hnil] at hlen
      simp at hlen
      exact hterms u hu hlen

/-- Claim C4 (witness): the amended theorem applied at
`highlightText "cat" ["cat"]` and its matched span `"cat"`. -/
theorem c4_amended_witness : (Span.mk Tag.matched (("cat").toList)).str ≠ [] :=
  c4_amended (("cat").toList) [("cat").toList] (by decide)
    (Span.mk Tag.matched (("cat").toList)) (by decide) rfl

/-- Claim C5 (counterexample): with terms `["cat", "cat-dog"]` on text
`"cat-dog"`, the longer term `"cat-dog"` is a valid word-boundary match at
position 0, yet the output's only matched span is the shorter `"cat"` —
JavaScript alternation is ordered choice, not longest-match, refuting
"among same-start candidates the longer match wins". -/
theorem c5_counterexample :
    matchAt [("cat-dog").toList] (("cat-dog").toList) 0 = some (("cat-dog").toList)
  ∧ (highlightText (("cat-dog").toList) [("cat").toList, ("cat-dog").toList]).filter
        (fun sp => sp.tag == Tag.matched)
      = [⟨Tag.matched, ("cat").toList⟩] := by decide

/-- Claim C5 (amended): the scan is left to right, so earlier-starting
matches win and the output spans partition the text with no overlap (their
concatenation is the text); among candidates starting at the same position
the first term in term-list order whose boundaries hold wins, not the
longer one, as the two orderings of `["cat", "cat-dog"]` on `"cat-dog"`
show. -/
theorem c5_amended :
    (∀ (text : List Char) (terms : List (List Char)),
        concatAll ((highlightText text terms).map Span.str) = text)
  ∧ (highlightText (("cat-dog").toList) [("cat").toList, ("cat-dog").toList]).filter
        (fun sp => sp.tag == Tag.matched) = [⟨Tag.matched, ("cat").toList⟩]
  ∧ (highlightText (("cat-dog").toList) [("cat-dog").toList, ("cat").toList]).filter
        (fun sp => sp.tag == Tag.matched) = [⟨Tag.matched, ("cat-dog").toList⟩] :=
  ⟨fun text terms => highlight_concat text terms, by decide, by decide⟩

/-- Claim C6 (code evaluation at the failing trace): the source has no
generation counter — responses are applied in arrival order. Submitting
query A (docs `[1]`), then query B (docs `[2]`), then receiving B's
response followed by A's, leaves A's results `[1]` displayed, not B's as
the claim requires. -/
theorem c6_code_divergence :
    (runEvents initialState
        [SEvent.submit (("alpha").toList), SEvent.submit (("beta").toList),
         SEvent.response (BackendResp.ok [2]),
         SEvent.response (BackendResp.ok [1])]).results = [1] := by decide

/-- Claim C7: the tokenization step splits on runs of whitespace and drops
empty fragments: `tokenize "  foo   bar "` is exactly `["foo", "bar"]`, and
the empty string or any whitespace-only string tokenizes to the empty
sequence. -/
theorem c7_tokenize :
    tokenize (("  foo   bar ").toList) = [("foo").toList, ("bar").toList]
  ∧ tokenize ([] : List Char) = []
  ∧ (∀ q : List Char, (∀ c ∈ q, isJsWs c = true) → tokenize q = []) :=
  ⟨by decide, rfl, fun q h => tokenize_allWs q h⟩

/-- Claim C7 (witness): the whitespace-only conjunct applied at `"   "`. -/
theorem c7_tokenize_witness : tokenize (("   ").toList) = [] :=
  c7_tokenize.2.2 (("   ").toList) (by decide)

/-- Claim C8: totality — `highlightText` and `tokenize` are total functions
returning a result on every input: with an empty term list the whole text
is one plain span, the output is never empty for any text and term list,
the tokenizer accepts empty input, and metacharacter-only text and terms
are handled. -/
theorem c8_total :
    (∀ text : List Char, highlightText text [] = [⟨Tag.plain, text⟩])
  ∧ (∀ (text : List Char) (terms : List (List Char)),
        0 < (highlightText text terms).length)
  ∧ tokenize [] = []
  ∧ highlightText ((".*+?^").toList) [(".*+?^").toList]
      = [⟨Tag.matched, (".*+?^").toList⟩] := by
  refine ⟨fun text => rfl, ?_, rfl, by decide⟩
  intro text terms
  cases terms with
  | nil => simp [highlightText]
  | cons t ts =>
      simp only [highlightText, splitRegex, List.length_map]
      exact List.length_pos.mpr (splitLoop_ne_nil _ _ _ _ _)

/-- Claim C9: submitting a query whose trimmed form is empty sets the
empty-query error and clears the results without issuing a fetch (second
component `false`), and the validation message differs from the
no-results and transport-failure messages. -/
theorem c9_empty_query : ∀ {α : Type} (s : SessionState α) (q : List Char),
    trimJs q = [] →
    (submitStep s q).2 = false
  ∧ (submitStep s q).1.error = some emptyQueryMsg
  ∧ (submitStep s q).1.results = []
  ∧ emptyQueryMsg ≠ noResultsMsg
  ∧ emptyQueryMsg ≠ transportFailMsg := by
  intro α s q hq
  unfold submitStep
  rw [if_pos hq]
  exact ⟨rfl, rfl, rfl, by decide, by decide⟩

/-- Claim C9 (witness): the theorem applied at the whitespace-only query
`"   "` from the initial state. -/
theorem c9_empty_query_witness :
    (submitStep initialState (("   ").toList)).2 = false
  ∧ (submitStep initialState (("   ").toList)).1.error = some emptyQueryMsg
  ∧ (submitStep initialState (("   ").toList)).1.results = []
  ∧ emptyQueryMsg ≠ noResultsMsg
  ∧ emptyQueryMsg ≠ transportFailMsg :=
  c9_empty_query initialState (("   ").toList) (by decide)

/-- Claim C10 (counterexample): with two overlapping submissions, a
backend-error response followed by a late successful response leaves the
state holding both a non-null error and a non-empty result list — the
success path does not clear a previously set error (clearing happens only
at submit time). -/
theorem c10_counterexample :
    (runEvents initialState
        [SEvent.submit (("a").toList), SEvent.submit (("b").toList),
         SEvent.response (BackendResp.backendError (("boom").toList)),
         SEvent.response (BackendResp.ok [1])]).error = some (("boom").toList)
  ∧ (runEvents initialState
        [SEvent.submit (("a").toList), SEvent.submit (("b").toList),
         SEvent.response (BackendResp.backendError (("boom").toList)),
         SEvent.response (BackendResp.ok [1])]).results = [1] := by decide

/-- Claim C10 (amended): for a single submission processed to completion
with no interleaved submission, the invariant holds — whenever the
resulting state has a non-null error, its result list is empty (every
error-setting branch either clears results or inherits the empty list set
at submit time, and the success branch leaves the submit-time `none`
error). -/
theorem c10_amended : ∀ {α : Type} (s : SessionState α) (q : List Char)
    (r : BackendResp α),
    (runSubmission s q r).error ≠ none → (runSubmission s q r).results = [] := by
  intro α s q r h
  by_cases hq : trimJs q = []
  · simp [runSubmission, submitStep, hq]
  · cases r with
    | transportFail => simp [runSubmission, submitStep, applyResponse, hq]
    | backendError m => simp [runSubmission, submitStep, applyResponse, hq]
    | ok rs =>
        by_cases hrs : rs.length = 0
        · simp [runSubmission, submitStep, applyResponse, hq, hrs]
        · exfalso
          apply h
          simp [runSubmission, submitStep, applyResponse, hq, hrs]

/-- Claim C10 (witness): the amended theorem applied to the empty-query
submission from the initial state, whose final state has an error set. -/
theorem c10_amended_witness :
    (runSubmission initialState ([] : List Char) (BackendResp.ok [5])).results = [] :=
  c10_amended initialState [] (BackendResp.ok [5]) (by decide)
